import Mathlib

/-!
Shallow embedding of `heredity.py`: exact Bayesian-network inference over a
small pedigree.  Python dictionaries become association lists, Python sets
become lists with membership tests, floats become exact rationals, and a
Python `KeyError` becomes `Option.none`.
-/

namespace Heredity

/-- One record of the `people` dictionary: `mother`, `father` (by name, `none`
when blank) and the observed `trait` (`none` when unknown). -/
structure PersonData where
  mother : Option String
  father : Option String
  trait : Option Bool
deriving DecidableEq, Repr

/-- The `people` dictionary: an association list from name to record. -/
abbrev Pedigree := List (String × PersonData)

/-- PROBS mutation constant of the source. -/
def mutationRate : ℚ := 1 / 100

/-- PROBS gene table of the source: unconditional prior on gene count. -/
def geneProb : ℕ → ℚ
  | 0 => 96 / 100
  | 1 => 3 / 100
  | _ => 1 / 100

/-- PROBS trait table of the source: probability of the trait value given the
gene count. -/
def traitProb : ℕ → Bool → ℚ
  | 0, true => 1 / 100
  | 0, false => 99 / 100
  | 1, true => 56 / 100
  | 1, false => 44 / 100
  | _, true => 65 / 100
  | _, false => 35 / 100

/-- genes_dict of the source: the dictionary built over the keys of `people`
maps a member of `one_gene` to 1, else a member of `two_genes` to 2, else 0;
looking up a name outside `people` is a `KeyError`, i.e. `none`. -/
def genesDict (people one_gene two_genes : List String) : String → Option ℕ :=
  fun q =>
    if q ∈ people then
      some (if q ∈ one_gene then 1 else if q ∈ two_genes then 2 else 0)
    else
      none

/-- The factor that the loop body of joint_probability multiplies into `prob`
before the trait factor, for a person whose assigned gene count is `g`.
`genes` is the lookup into the genes dictionary; a failed parent lookup is the
source's `KeyError`.  The structure mirrors the source branch by branch; in
particular, when `g = 1` and both parents are assigned 0 copies (`s = 0`) the
source has no branch and leaves `prob` unmultiplied, hence the final `1`. -/
def inheritanceFactor (genes : String → Option ℕ) (pd : PersonData) (g : ℕ) :
    Option ℚ :=
  if g == 2 then
    match pd.mother, pd.father with
    | some m, some f => do
        let gm ← genes m
        let gf ← genes f
        pure ((if gm == 2 then 1 - mutationRate
               else if gm == 1 then (1 : ℚ) / 2 else mutationRate) *
              (if gf == 2 then 1 - mutationRate
               else if gf == 1 then (1 : ℚ) / 2 else mutationRate))
    | _, _ => pure (geneProb 2)
  else if g == 1 then
    match pd.mother, pd.father with
    | some m, some f => do
        let gm ← genes m
        let gf ← genes f
        let s := gm + gf
        pure (if s == 4 then 2 * mutationRate * (1 - mutationRate)
              else if s == 3 then (1 : ℚ) / 2
              else if s == 2 then
                (if gm == 1 then (1 : ℚ) / 2
                 else 1 - 2 * mutationRate + 2 * mutationRate ^ 2)
              else if s == 1 then (1 : ℚ) / 2
              else 1)
    | _, _ => pure (geneProb 1)
  else
    match pd.mother, pd.father with
    | some m, some f => do
        let gm ← genes m
        let gf ← genes f
        pure ((if gm == 2 then mutationRate
               else if gm == 1 then (1 : ℚ) / 2 else 1 - mutationRate) *
              (if gf == 2 then mutationRate
               else if gf == 1 then (1 : ℚ) / 2 else 1 - mutationRate))
    | _, _ => pure (geneProb 0)

/-- One person's contribution `prob` appended to `prob_list` by the loop of
joint_probability: the inheritance factor times the trait factor. -/
def personProb (genes : String → Option ℕ) (n : String) (pd : PersonData)
    (have_trait : List String) : Option ℚ := do
  let g ← genes n
  let inh ← inheritanceFactor genes pd g
  pure (inh * traitProb g (decide (n ∈ have_trait)))

/-- The `prob_list` of joint_probability, built person by person in order. -/
def personsProb (genes : String → Option ℕ) (have_trait : List String) :
    List (String × PersonData) → Option (List ℚ)
  | [] => some []
  | q :: rest => do
      let p ← personProb genes q.1 q.2 have_trait
      let ps ← personsProb genes have_trait rest
      pure (p :: ps)

/-- joint_probability of the source: the product of every person's factor. -/
def jointProbability (people : Pedigree)
    (one_gene two_genes have_trait : List String) : Option ℚ := do
  let genes := genesDict (people.map Prod.fst) one_gene two_genes
  let probs ← personsProb genes have_trait people
  pure (probs.foldl (fun a b => a * b) 1)

/-- One person's accumulated distributions: three gene buckets, two trait
buckets. -/
structure Dist where
  g0 : ℚ
  g1 : ℚ
  g2 : ℚ
  tT : ℚ
  tF : ℚ
deriving DecidableEq, Repr

/-- The probabilities structure of main: one `Dist` per person. -/
abbrev Distributions := List (String × Dist)

/-- The zero-initialized probabilities structure built at the top of main. -/
def initProbs (names : List String) : Distributions :=
  names.map (fun n => (n, ⟨0, 0, 0, 0, 0⟩))

/-- The per-person effect of update: add `p` to the gene bucket selected by
the genes dictionary value `g` and to the trait bucket selected by `ht`. -/
def updPerson (d : Dist) (g : ℕ) (ht : Bool) (p : ℚ) : Dist where
  g0 := d.g0 + if g = 0 then p else 0
  g1 := d.g1 + if g = 1 then p else 0
  g2 := d.g2 + if g = 2 then p else 0
  tT := d.tT + if ht then p else 0
  tF := d.tF + if ht then 0 else p

/-- update of the source: for every person of the structure, add `p` into the
gene bucket given by genes_dict over the structure's keys and into the trait
bucket given by membership in `have_trait`. -/
def update (probabilities : Distributions)
    (one_gene two_genes have_trait : List String) (p : ℚ) : Distributions :=
  probabilities.map fun q =>
    (q.1,
      updPerson q.2
        (if q.1 ∈ one_gene then 1 else if q.1 ∈ two_genes then 2 else 0)
        (decide (q.1 ∈ have_trait)) p)

/-- The per-person effect of normalize: divide each bucket of a field by the
field's bucket sum (summed in the source's key order 2, 1, 0 and True,
False). -/
def normalizeDist (d : Dist) : Dist :=
  let sg := d.g2 + d.g1 + d.g0
  let st := d.tT + d.tF
  { g0 := d.g0 / sg, g1 := d.g1 / sg, g2 := d.g2 / sg,
    tT := d.tT / st, tF := d.tF / st }

/-- normalize of the source, applied to every person of the structure. -/
def normalize (probabilities : Distributions) : Distributions :=
  probabilities.map fun q => (q.1, normalizeDist q.2)

/-- itertools.combinations of the source's powerset: all length-`r`
subsequences of `s`, in the order itertools emits them. -/
def combinations {α : Type} : ℕ → List α → List (List α)
  | 0, _ => [[]]
  | _ + 1, [] => []
  | r + 1, x :: xs =>
      (combinations r xs).map (fun t => x :: t) ++ combinations (r + 1) xs

/-- powerset of the source: all subsets of `s`, grouped by size 0 to `n`. -/
def powersetL {α : Type} (s : List α) : List (List α) :=
  (List.range (s.length + 1)).flatMap (fun r => combinations r s)

/-- The fails_evidence test of main: some person has an observed trait value
that disagrees with membership in `have_trait`. -/
def failsEvidence (people : Pedigree) (have_trait : List String) : Bool :=
  people.any fun q =>
    match q.2.trait with
    | none => false
    | some t => t != decide (q.1 ∈ have_trait)

/-- The accumulation loops of main, before normalization: fold every
surviving world's joint probability into the distributions structure. -/
def inferRaw (people : Pedigree) : Option Distributions := do
  let names := people.map Prod.fst
  (powersetL names).foldlM
    (fun probs have_trait =>
      if failsEvidence people have_trait then
        pure probs
      else
        (powersetL names).foldlM
          (fun probs2 one_gene =>
            (powersetL (names.filter (fun q => decide (q ∉ one_gene)))).foldlM
              (fun probs3 two_genes => do
                let p ← jointProbability people one_gene two_genes have_trait
                pure (update probs3 one_gene two_genes have_trait p))
              probs2)
          probs)
    (initProbs names)

/-- The whole inference run of main on an in-memory pedigree: accumulate over
all surviving worlds, then normalize. -/
def infer (people : Pedigree) : Option Distributions := do
  let acc ← inferRaw people
  pure (normalize acc)

/-- The sum of joint_probability over conceptually all worlds: every
have-trait subset (no evidence filtering) and every disjoint pair of gene
subsets. -/
def totalJoint (people : Pedigree) : Option ℚ := do
  let names := people.map Prod.fst
  (powersetL names).foldlM
    (fun acc have_trait =>
      (powersetL names).foldlM
        (fun acc2 one_gene =>
          (powersetL (names.filter (fun q => decide (q ∉ one_gene)))).foldlM
            (fun acc3 two_genes => do
              let p ← jointProbability people one_gene two_genes have_trait
              pure (acc3 + p))
            acc2)
        acc)
    0

/-- Modelled from the spec: the closed-form inheritance factor for a child
with two parents, `p_transmit` per parent being the mutation rate, one half,
or one minus the mutation rate for 0, 1 or 2 parental copies. -/
def pTransmit (g : ℕ) : ℚ :=
  if g == 0 then mutationRate else if g == 1 then (1 : ℚ) / 2
  else 1 - mutationRate

/-- Modelled from the spec: probability that the child has `g` copies given
parental counts `gm` and `gf`, as two independent Bernoulli transmissions. -/
def specChildFactor (gm gf g : ℕ) : ℚ :=
  if g == 2 then pTransmit gm * pTransmit gf
  else if g == 0 then (1 - pTransmit gm) * (1 - pTransmit gf)
  else pTransmit gm * (1 - pTransmit gf) + (1 - pTransmit gm) * pTransmit gf

/-- The family0 pedigree of the spec's concrete scenario: Harry is the child
of Lily (observed trait false) and James (trait unknown). -/
def family0 : Pedigree :=
  [("Harry", ⟨some "Lily", some "James", none⟩),
   ("James", ⟨none, none, none⟩),
   ("Lily", ⟨none, none, some false⟩)]

/-- The same pedigree with every trait unobserved: an evidence-free run. -/
def family0free : Pedigree :=
  [("Harry", ⟨some "Lily", some "James", none⟩),
   ("James", ⟨none, none, none⟩),
   ("Lily", ⟨none, none, none⟩)]

/-- A pedigree whose only person has exactly one parent reference. -/
def halfOrphan : Pedigree :=
  [("A", ⟨none, none, none⟩), ("B", ⟨some "A", none, none⟩)]

/-- C1: for a child with both parents recorded, the inheritance factor of
joint_probability is claimed to equal the spec's two-independent-transmission
closed form at every combination of parental gene counts.  It does not: with
the child assigned 1 copy and both parents assigned 0 copies (here via
one_gene = C on people M, F, C), the source has no branch for a parental gene
sum of 0 and leaves the factor at 1, while the closed form gives
2 x 0.01 x 0.99 = 99/5000. -/
theorem C1_inheritance_missing_branch :
    genesDict ["M", "F", "C"] ["C"] [] "M" = some 0 ∧
    genesDict ["M", "F", "C"] ["C"] [] "F" = some 0 ∧
    genesDict ["M", "F", "C"] ["C"] [] "C" = some 1 ∧
    inheritanceFactor (genesDict ["M", "F", "C"] ["C"] [])
      ⟨some "M", some "F", none⟩ 1 = some 1 ∧
    specChildFactor 0 0 1 = 99 / 5000 ∧
    ((1 : ℚ)) ≠ 99 / 5000 := by
  decide!

/-- C2: the sum of joint_probability over all worlds of a well-formed
pedigree is claimed to be exactly 1.  On the three-person pedigree Harry
(child of Lily and James), with no evidence, the sum the source computes is
743497/390625, about 1.9034, because the missing parental-sum-0 branch
overweights the child-has-1-copy worlds. -/
theorem C2_total_probability_not_one :
    totalJoint family0free = some (743497 / 390625) ∧
    totalJoint family0free ≠ some 1 := by
  decide!

/-- C3: the founder James, with no observed trait and only unobserved
evidence elsewhere, is claimed to keep exactly the prior gene distribution.
In the source his normalized posterior for 2 copies on family0 is
6044375/1163386748, not 1/100, and his unnormalized marginal for 0 copies on
an evidence-free run is 727872/390625, not 96/100: the missing
parental-sum-0 branch makes the child worlds sum to more than 1 exactly when
both founders carry 0 copies, conditioning the founders. -/
theorem C3_founder_posterior_not_prior :
    (((infer family0).getD []).lookup "James").map Dist.g2 =
      some (6044375 / 1163386748) ∧
    (((infer family0).getD []).lookup "James").map Dist.g2 ≠ some (1 / 100) ∧
    (((inferRaw family0free).getD []).lookup "James").map Dist.g0 =
      some (727872 / 390625) ∧
    (((inferRaw family0free).getD []).lookup "James").map Dist.g0 ≠
      some (96 / 100) := by
  decide!

/-- C4, counterexample: a person with exactly one parent reference is claimed
to make the engine fail fast.  It does not: on the pedigree where B records
only a mother, joint_probability silently takes the founder branch for B and
returns the founder value (0.96 x 0.99) squared. -/
theorem C4_single_parent_not_rejected :
    jointProbability halfOrphan [] [] [] = some (352836 / 390625) ∧
    jointProbability halfOrphan [] [] [] ≠ none ∧
    inheritanceFactor
      (genesDict (halfOrphan.map Prod.fst) [] []) ⟨some "A", none, none⟩ 0 =
      some (geneProb 0) := by
  decide!

/-- C9: inference on the empty pedigree completes without error and returns
the empty distributions mapping. -/
theorem C9_empty_pedigree :
    infer ([] : Pedigree) = some [] := by
  decide!

/-- C6: genes_dict is total on the person set and assigns 1 on `one_gene`,
2 on `two_genes`, and 0 elsewhere, provided the two subsets are disjoint. -/
theorem C6_genes_dict_resolves (people one_gene two_genes : List String)
    (hdisj : ∀ q ∈ one_gene, q ∉ two_genes) (p : String) (hp : p ∈ people) :
    (genesDict people one_gene two_genes p).isSome = true ∧
    (p ∈ one_gene → genesDict people one_gene two_genes p = some 1) ∧
    (p ∈ two_genes → genesDict people one_gene two_genes p = some 2) ∧
    (p ∉ one_gene → p ∉ two_genes →
      genesDict people one_gene two_genes p = some 0) := by
  unfold genesDict
  rw [if_pos hp]
  refine ⟨rfl, ?_, ?_, ?_⟩
  · intro h1
    rw [if_pos h1]
  · intro h2
    rw [if_neg (fun h1 => hdisj p h1 h2), if_pos h2]
  · intro h1 h2
    rw [if_neg h1, if_neg h2]

/-- C6, witness at a concrete person set and subset pair. -/
theorem C6_genes_dict_resolves_witness :
    (genesDict ["a", "b", "c"] ["a"] ["b"] "a").isSome = true ∧
    ("a" ∈ ["a"] → genesDict ["a", "b", "c"] ["a"] ["b"] "a" = some 1) ∧
    ("a" ∈ ["b"] → genesDict ["a", "b", "c"] ["a"] ["b"] "a" = some 2) ∧
    ("a" ∉ ["a"] → "a" ∉ ["b"] →
      genesDict ["a", "b", "c"] ["a"] ["b"] "a" = some 0) :=
  C6_genes_dict_resolves ["a", "b", "c"] ["a"] ["b"] (by decide) "a" (by decide)

/-- C8: for a person with no recorded parents, the inheritance factor of
joint_probability is exactly the unconditional prior for the assigned gene
count: 0.96, 0.03 and 0.01 for 0, 1 and 2 copies. -/
theorem C8_founder_prior (genes : String → Option ℕ) (pd : PersonData)
    (hm : pd.mother = none) (hf : pd.father = none) :
    inheritanceFactor genes pd 0 = some (96 / 100) ∧
    inheritanceFactor genes pd 1 = some (3 / 100) ∧
    inheritanceFactor genes pd 2 = some (1 / 100) := by
  rcases pd with ⟨mo, fa, t⟩
  cases hm
  cases hf
  exact ⟨rfl, rfl, rfl⟩

/-- C8, witness at a concrete founder record. -/
theorem C8_founder_prior_witness :
    inheritanceFactor (fun _ => none) ⟨none, none, none⟩ 0 = some (96 / 100) ∧
    inheritanceFactor (fun _ => none) ⟨none, none, none⟩ 1 = some (3 / 100) ∧
    inheritanceFactor (fun _ => none) ⟨none, none, none⟩ 2 = some (1 / 100) :=
  C8_founder_prior (fun _ => none) ⟨none, none, none⟩ rfl rfl

/-- The gene-field sum of one person's distributions. -/
def geneSum (d : Dist) : ℚ := d.g0 + d.g1 + d.g2

/-- The trait-field sum of one person's distributions. -/
def traitSum (d : Dist) : ℚ := d.tT + d.tF

/-- Every bucket of one person's distributions is non-negative. -/
def distNonneg (d : Dist) : Prop :=
  0 ≤ d.g0 ∧ 0 ≤ d.g1 ∧ 0 ≤ d.g2 ∧ 0 ≤ d.tT ∧ 0 ≤ d.tF

/-- The pairwise ratios between buckets of the same field agree between `d`
and `e`, stated multiplicatively. -/
def ratiosPreserved (d e : Dist) : Prop :=
  e.g0 * d.g1 = e.g1 * d.g0 ∧ e.g0 * d.g2 = e.g2 * d.g0 ∧
  e.g1 * d.g2 = e.g2 * d.g1 ∧ e.tT * d.tF = e.tF * d.tT

theorem normalizeDist_fields (d : Dist) (hg : geneSum d ≠ 0)
    (ht : traitSum d ≠ 0) :
    geneSum (normalizeDist d) = 1 ∧ traitSum (normalizeDist d) = 1 ∧
    ratiosPreserved d (normalizeDist d) := by
  have hg' : d.g2 + d.g1 + d.g0 ≠ 0 := by
    intro h
    exact hg (by unfold geneSum; linarith [h])
  have ht' : d.tT + d.tF ≠ 0 := ht
  refine ⟨?_, ?_, ?_, ?_, ?_, ?_⟩
  · show d.g0 / (d.g2 + d.g1 + d.g0) + d.g1 / (d.g2 + d.g1 + d.g0) +
      d.g2 / (d.g2 + d.g1 + d.g0) = 1
    rw [div_add_div_same, div_add_div_same, div_eq_one_iff_eq hg']
    ring
  · show d.tT / (d.tT + d.tF) + d.tF / (d.tT + d.tF) = 1
    rw [div_add_div_same, div_eq_one_iff_eq ht']
  · show d.g0 / (d.g2 + d.g1 + d.g0) * d.g1 =
      d.g1 / (d.g2 + d.g1 + d.g0) * d.g0
    field_simp
    ring
  · show d.g0 / (d.g2 + d.g1 + d.g0) * d.g2 =
      d.g2 / (d.g2 + d.g1 + d.g0) * d.g0
    field_simp
    ring
  · show d.g1 / (d.g2 + d.g1 + d.g0) * d.g2 =
      d.g2 / (d.g2 + d.g1 + d.g0) * d.g1
    field_simp
    ring
  · show d.tT / (d.tT + d.tF) * d.tF = d.tF / (d.tT + d.tF) * d.tT
    field_simp
    ring

/-- C5: when every field of every person has non-negative buckets with a
strictly positive sum, normalize maps each person's record to the rescaled
record whose fields sum to exactly 1 with all pairwise bucket ratios
preserved. -/
theorem C5_normalize_sums_to_one (probs : Distributions)
    (h : ∀ q ∈ probs, distNonneg q.2 ∧ 0 < geneSum q.2 ∧ 0 < traitSum q.2) :
    normalize probs = probs.map (fun q => (q.1, normalizeDist q.2)) ∧
    ∀ q ∈ probs, geneSum (normalizeDist q.2) = 1 ∧
      traitSum (normalizeDist q.2) = 1 ∧
      ratiosPreserved q.2 (normalizeDist q.2) := by
  refine ⟨rfl, ?_⟩
  intro q hq
  obtain ⟨-, hg, ht⟩ := h q hq
  exact normalizeDist_fields q.2 (ne_of_gt hg) (ne_of_gt ht)

/-- C5, witness at a one-person structure with unnormalized buckets. -/
theorem C5_normalize_sums_to_one_witness :
    normalize [("A", ⟨1, 2, 1, 3, 1⟩)] =
      [("A", ⟨1, 2, 1, 3, 1⟩)].map (fun q => (q.1, normalizeDist q.2)) ∧
    ∀ q ∈ [(("A" : String), (⟨1, 2, 1, 3, 1⟩ : Dist))],
      geneSum (normalizeDist q.2) = 1 ∧ traitSum (normalizeDist q.2) = 1 ∧
      ratiosPreserved q.2 (normalizeDist q.2) :=
  C5_normalize_sums_to_one [("A", ⟨1, 2, 1, 3, 1⟩)] (by
    intro q hq
    rw [List.mem_singleton] at hq
    subst hq
    refine ⟨⟨by norm_num, by norm_num, by norm_num, by norm_num, by norm_num⟩,
      by norm_num [geneSum], by norm_num [traitSum]⟩)

theorem inheritanceFactor_dangling (genes : String → Option ℕ)
    (pd : PersonData) (m f : String) (hm : pd.mother = some m)
    (hf : pd.father = some f) (hnone : genes m = none ∨ genes f = none)
    (g : ℕ) : inheritanceFactor genes pd g = none := by
  rcases pd with ⟨mo, fa, t⟩
  cases hm
  cases hf
  rcases hnone with h | h
  · simp [inheritanceFactor, h]
  · cases hgm : genes m with
    | none => simp [inheritanceFactor, hgm]
    | some v => simp [inheritanceFactor, hgm, h]

theorem personsProb_none (genes : String → Option ℕ) (ht : List String) :
    ∀ (l : List (String × PersonData)) (q : String × PersonData), q ∈ l →
      personProb genes q.1 q.2 ht = none → personsProb genes ht l = none := by
  intro l
  induction l with
  | nil =>
      intro q h
      cases h
  | cons hd tl ih =>
      intro q hq hnone
      rcases List.mem_cons.mp hq with rfl | hmem
      · simp [personsProb, hnone]
      · cases hh : personProb genes hd.1 hd.2 ht with
        | none => simp [personsProb, hh]
        | some v => simp [personsProb, hh, ih q hmem hnone]

/-- C4, amended: when some person records both a mother and a father and at
least one of the two references does not resolve to a person of the
pedigree, joint_probability fails fast with a lookup failure for every
choice of world, instead of returning a value. -/
theorem C4_dangling_reference_fails_fast (people : Pedigree) (n : String)
    (pd : PersonData) (m f : String) (hmem : (n, pd) ∈ people)
    (hm : pd.mother = some m) (hf : pd.father = some f)
    (hdangle : m ∉ people.map Prod.fst ∨ f ∉ people.map Prod.fst)
    (one_gene two_genes have_trait : List String) :
    jointProbability people one_gene two_genes have_trait = none := by
  have hgen :
      genesDict (people.map Prod.fst) one_gene two_genes m = none ∨
      genesDict (people.map Prod.fst) one_gene two_genes f = none := by
    rcases hdangle with h | h
    · exact Or.inl (by simp [genesDict, h])
    · exact Or.inr (by simp [genesDict, h])
  have hpp :
      personProb (genesDict (people.map Prod.fst) one_gene two_genes) n pd
        have_trait = none := by
    cases hg : genesDict (people.map Prod.fst) one_gene two_genes n with
    | none => simp [personProb, hg]
    | some g =>
        simp [personProb, hg,
          inheritanceFactor_dangling _ pd m f hm hf hgen g]
  have hlist := personsProb_none
    (genesDict (people.map Prod.fst) one_gene two_genes) have_trait people
    (n, pd) hmem hpp
  simp [jointProbability, hlist]

/-- C4 amended, witness: a one-person pedigree whose only record references
the absent parents X and Y. -/
theorem C4_dangling_reference_fails_fast_witness :
    jointProbability [("B", ⟨some "X", some "Y", none⟩)] [] [] [] = none :=
  C4_dangling_reference_fails_fast [("B", ⟨some "X", some "Y", none⟩)] "B"
    ⟨some "X", some "Y", none⟩ "X" "Y" (by decide) rfl rfl
    (Or.inl (by decide)) [] [] []

/-- A sequence of update calls applied in order, as main's inner loops do. -/
def runUpdates (probs : Distributions) :
    List (List String × List String × List String × ℚ) → Distributions
  | [] => probs
  | c :: rest => runUpdates (update probs c.1 c.2.1 c.2.2.1 c.2.2.2) rest

/-- The total of the joint probabilities accumulated by a sequence of update
calls. -/
def totalMass (calls : List (List String × List String × List String × ℚ)) :
    ℚ :=
  (calls.map (fun c => c.2.2.2)).sum

theorem update_sums (probs : Distributions)
    (one_gene two_genes have_trait : List String) (p : ℚ) (c : ℚ)
    (h : ∀ q ∈ probs, geneSum q.2 = c ∧ traitSum q.2 = c) :
    ∀ q ∈ update probs one_gene two_genes have_trait p,
      geneSum q.2 = c + p ∧ traitSum q.2 = c + p := by
  intro q hq
  simp only [update, List.mem_map] at hq
  obtain ⟨q0, hq0, rfl⟩ := hq
  obtain ⟨hg, ht⟩ := h q0 hq0
  simp only [geneSum] at hg
  simp only [traitSum] at ht
  constructor
  · by_cases h1 : q0.1 ∈ one_gene
    · simp only [geneSum, updPerson, if_pos h1]
      norm_num
      linarith
    · by_cases h2 : q0.1 ∈ two_genes
      · simp only [geneSum, updPerson, if_neg h1, if_pos h2]
        norm_num
        linarith
      · simp only [geneSum, updPerson, if_neg h1, if_neg h2]
        norm_num
        linarith
  · by_cases h3 : q0.1 ∈ have_trait
    · simp [traitSum, updPerson, h3]
      linarith
    · simp [traitSum, updPerson, h3]
      linarith

theorem runUpdates_sums
    (calls : List (List String × List String × List String × ℚ)) :
    ∀ (probs : Distributions) (c : ℚ),
      (∀ q ∈ probs, geneSum q.2 = c ∧ traitSum q.2 = c) →
      ∀ q ∈ runUpdates probs calls,
        geneSum q.2 = c + totalMass calls ∧
        traitSum q.2 = c + totalMass calls := by
  induction calls with
  | nil =>
      intro probs c h q hq
      have := h q hq
      simp only [totalMass, List.map_nil, List.sum_nil, add_zero]
      exact ⟨this.1, this.2⟩
  | cons hd tl ih =>
      intro probs c h q hq
      have hstep := update_sums probs hd.1 hd.2.1 hd.2.2.1 hd.2.2.2 c h
      have := ih (update probs hd.1 hd.2.1 hd.2.2.1 hd.2.2.2) (c + hd.2.2.2)
        hstep q hq
      have hmass : totalMass (hd :: tl) = hd.2.2.2 + totalMass tl := by
        simp [totalMass]
      rw [hmass]
      exact ⟨by linarith [this.1], by linarith [this.2]⟩

/-- C10: starting from the zero-initialized structure, after any sequence of
update calls every person's gene buckets and trait buckets each sum to the
total of all accumulated joint probabilities, the same value for every
person, since each call adds the same p to exactly one gene bucket and one
trait bucket per person. -/
theorem C10_accumulator_invariant (names : List String)
    (calls : List (List String × List String × List String × ℚ))
    (q : String × Dist) (hq : q ∈ runUpdates (initProbs names) calls) :
    geneSum q.2 = totalMass calls ∧ traitSum q.2 = totalMass calls := by
  have h0 : ∀ r ∈ initProbs names, geneSum r.2 = 0 ∧ traitSum r.2 = 0 := by
    intro r hr
    simp only [initProbs, List.mem_map] at hr
    obtain ⟨n, -, rfl⟩ := hr
    constructor
    · show (0 : ℚ) + 0 + 0 = 0
      norm_num
    · show (0 : ℚ) + 0 = 0
      norm_num
  have := runUpdates_sums calls (initProbs names) 0 h0 q hq
  exact ⟨by linarith [this.1], by linarith [this.2]⟩

theorem length_combinations {α : Type} :
    ∀ (r : ℕ) (s : List α), (combinations r s).length = s.length.choose r := by
  intro r s
  induction s generalizing r with
  | nil =>
      cases r with
      | zero => rfl
      | succ r => rfl
  | cons x xs ih =>
      cases r with
      | zero => rfl
      | succ r =>
          simp only [combinations, List.length_append, List.length_map, ih,
            List.length_cons, Nat.choose_succ_succ']

theorem mem_combinations {α : Type} :
    ∀ (r : ℕ) (s t : List α),
      t ∈ combinations r s ↔ t.Sublist s ∧ t.length = r := by
  intro r s
  induction s generalizing r with
  | nil =>
      intro t
      cases r with
      | zero =>
          constructor
          · intro h
            simp only [combinations, List.mem_singleton] at h
            subst h
            exact ⟨List.Sublist.refl [], rfl⟩
          · intro h
            rw [List.sublist_nil] at h
            rw [h.1]
            exact List.mem_singleton.mpr rfl
      | succ r =>
          constructor
          · intro h
            cases h
          · intro h
            obtain ⟨h1, h2⟩ := h
            rw [List.sublist_nil] at h1
            subst h1
            cases h2
  | cons x xs ih =>
      intro t
      cases r with
      | zero =>
          constructor
          · intro h
            simp only [combinations, List.mem_singleton] at h
            subst h
            exact ⟨List.nil_sublist _, rfl⟩
          · intro h
            obtain ⟨h1, h2⟩ := h
            rw [List.length_eq_zero] at h2
            subst h2
            exact List.mem_singleton.mpr rfl
      | succ r =>
          constructor
          · intro h
            rcases List.mem_append.mp h with h | h
            · rcases List.mem_map.mp h with ⟨u, hu, rfl⟩
              obtain ⟨hs, hl⟩ := (ih r u).mp hu
              exact ⟨List.Sublist.cons₂ x hs, by simp [hl]⟩
            · obtain ⟨hs, hl⟩ := (ih (r + 1) t).mp h
              exact ⟨List.Sublist.cons x hs, hl⟩
          · intro h
            obtain ⟨h1, h2⟩ := h
            rcases List.sublist_cons_iff.mp h1 with h1' | ⟨u, rfl, hu⟩
            · exact List.mem_append.mpr
                (Or.inr ((ih (r + 1) t).mpr ⟨h1', h2⟩))
            · refine List.mem_append.mpr (Or.inl ?_)
              refine List.mem_map.mpr ⟨u, (ih r u).mpr ⟨hu, ?_⟩, rfl⟩
              simpa using h2

theorem nodup_combinations {α : Type} :
    ∀ (r : ℕ) (s : List α), s.Nodup → (combinations r s).Nodup := by
  intro r s
  induction s generalizing r with
  | nil =>
      intro _
      cases r with
      | zero => exact List.nodup_singleton _
      | succ r => exact List.nodup_nil
  | cons x xs ih =>
      intro hnd
      obtain ⟨hx, hnd'⟩ := List.nodup_cons.mp hnd
      cases r with
      | zero => exact List.nodup_singleton _
      | succ r =>
          refine List.Nodup.append ?_ (ih (r + 1) hnd') ?_
          · refine List.Nodup.map ?_ (ih r hnd')
            intro a b hab
            injection hab
          · intro t ht1 ht2
            rcases List.mem_map.mp ht1 with ⟨u, hu, rfl⟩
            obtain ⟨hs2, -⟩ := (mem_combinations (r + 1) xs (x :: u)).mp ht2
            exact hx (hs2.subset (List.mem_cons_self x u))

theorem mem_powersetL {α : Type} (s t : List α) :
    t ∈ powersetL s ↔ t.Sublist s := by
  constructor
  · intro h
    rw [powersetL, List.mem_flatMap] at h
    obtain ⟨r, -, hr⟩ := h
    exact ((mem_combinations r s t).mp hr).1
  · intro h
    rw [powersetL, List.mem_flatMap]
    refine ⟨t.length, ?_, (mem_combinations t.length s t).mpr ⟨h, rfl⟩⟩
    rw [List.mem_range]
    exact Nat.lt_succ_of_le h.length_le

theorem list_sum_map_range (f : ℕ → ℕ) :
    ∀ n : ℕ, ((List.range n).map f).sum = ∑ i ∈ Finset.range n, f i := by
  intro n
  induction n with
  | zero => rfl
  | succ n ih =>
      rw [List.range_succ, List.map_append, List.sum_append,
        Finset.sum_range_succ, ih]
      simp

theorem length_powersetL {α : Type} (s : List α) :
    (powersetL s).length = 2 ^ s.length := by
  rw [powersetL, List.flatMap_def, List.length_flatten, List.map_map]
  have hcong : ((List.range (s.length + 1)).map
      (List.length ∘ fun r => combinations r s)) =
      (List.range (s.length + 1)).map (fun r => s.length.choose r) := by
    apply List.map_congr_left
    intro r _
    exact length_combinations r s
  rw [hcong, list_sum_map_range, Nat.sum_range_choose]

theorem nodup_powersetL {α : Type} (s : List α) (hs : s.Nodup) :
    (powersetL s).Nodup := by
  rw [powersetL, List.nodup_flatMap]
  constructor
  · intro r _
    exact nodup_combinations r s hs
  · refine (List.pairwise_lt_range (s.length + 1)).imp ?_
    intro a b hab
    show List.Disjoint (combinations a s) (combinations b s)
    intro t hta htb
    obtain ⟨-, ha⟩ := (mem_combinations a s t).mp hta
    obtain ⟨-, hb⟩ := (mem_combinations b s t).mp htb
    omega

theorem sublist_eq_of_mem_iff {α : Type} :
    ∀ {l t₁ t₂ : List α}, l.Nodup → t₁.Sublist l → t₂.Sublist l →
      (∀ a, a ∈ t₁ ↔ a ∈ t₂) → t₁ = t₂ := by
  intro l
  induction l with
  | nil =>
      intro t₁ t₂ _ h1 h2 _
      rw [List.sublist_nil.mp h1, List.sublist_nil.mp h2]
  | cons x xs ih =>
      intro t₁ t₂ hnd h1 h2 hmem
      obtain ⟨hx, hnd'⟩ := List.nodup_cons.mp hnd
      rcases List.sublist_cons_iff.mp h1 with h1' | ⟨r₁, rfl, h1'⟩
      · rcases List.sublist_cons_iff.mp h2 with h2' | ⟨r₂, rfl, h2'⟩
        · exact ih hnd' h1' h2' hmem
        · have hx1 : x ∈ t₁ := (hmem x).mpr (List.mem_cons_self x r₂)
          exact absurd (h1'.subset hx1) hx
      · rcases List.sublist_cons_iff.mp h2 with h2' | ⟨r₂, rfl, h2'⟩
        · have hx2 : x ∈ x :: r₁ := List.mem_cons_self x r₁
          exact absurd (h2'.subset ((hmem x).mp hx2)) hx
        · have hr : ∀ a, a ∈ r₁ ↔ a ∈ r₂ := by
            intro a
            constructor
            · intro ha
              have hax : a ∈ x :: r₂ :=
                (hmem a).mp (List.mem_cons_of_mem _ ha)
              rcases List.mem_cons.mp hax with rfl | h
              · exact absurd (h1'.subset ha) hx
              · exact h
            · intro ha
              have hax : a ∈ x :: r₁ :=
                (hmem a).mpr (List.mem_cons_of_mem _ ha)
              rcases List.mem_cons.mp hax with rfl | h
              · exact absurd (h2'.subset ha) hx
              · exact h
          rw [ih hnd' h1' h2' hr]

/-- C7: on a duplicate-free list of n elements, powerset returns 2 to the n
subsets, pairwise distinct as sets, and the sets it returns are exactly the
subsets of the input, including the empty set and the whole set. -/
theorem C7_powerset_all_subsets {α : Type} [DecidableEq α] (s : List α)
    (hs : s.Nodup) :
    (powersetL s).length = 2 ^ s.length ∧
    ((powersetL s).map List.toFinset).Nodup ∧
    (∀ t : Finset α, t ∈ (powersetL s).map List.toFinset ↔ t ⊆ s.toFinset) ∧
    (∅ : Finset α) ∈ (powersetL s).map List.toFinset ∧
    s.toFinset ∈ (powersetL s).map List.toFinset := by
  have hmem : ∀ t : Finset α,
      t ∈ (powersetL s).map List.toFinset ↔ t ⊆ s.toFinset := by
    intro t
    constructor
    · intro h
      rcases List.mem_map.mp h with ⟨u, hu, rfl⟩
      intro a ha
      rw [List.mem_toFinset] at ha ⊢
      exact ((mem_powersetL s u).mp hu).subset ha
    · intro h
      refine List.mem_map.mpr ⟨s.filter (fun a => decide (a ∈ t)), ?_, ?_⟩
      · exact (mem_powersetL s _).mpr (List.filter_sublist s)
      · ext a
        rw [List.mem_toFinset, List.mem_filter]
        constructor
        · intro ha
          exact of_decide_eq_true ha.2
        · intro ha
          exact ⟨List.mem_toFinset.mp (h ha), decide_eq_true ha⟩
  refine ⟨length_powersetL s, ?_, hmem, ?_, ?_⟩
  · refine List.Nodup.map_on ?_ (nodup_powersetL s hs)
    intro u hu v hv huv
    refine sublist_eq_of_mem_iff hs ((mem_powersetL s u).mp hu)
      ((mem_powersetL s v).mp hv) ?_
    intro a
    rw [← List.mem_toFinset, huv, List.mem_toFinset]
  · exact (hmem ∅).mpr (Finset.empty_subset _)
  · exact (hmem s.toFinset).mpr (fun a ha => ha)

/-- C7, witness on the two-element set of names a, b. -/
theorem C7_powerset_all_subsets_witness :
    (powersetL ["a", "b"]).length = 2 ^ (["a", "b"] : List String).length ∧
    ((powersetL ["a", "b"]).map List.toFinset).Nodup ∧
    (∀ t : Finset String,
      t ∈ (powersetL ["a", "b"]).map List.toFinset ↔
        t ⊆ (["a", "b"] : List String).toFinset) ∧
    (∅ : Finset String) ∈ (powersetL ["a", "b"]).map List.toFinset ∧
    (["a", "b"] : List String).toFinset ∈
      (powersetL ["a", "b"]).map List.toFinset :=
  C7_powerset_all_subsets ["a", "b"] (by decide)

/-- C10, witness: two people, one update call with p = 1/2. -/
theorem C10_accumulator_invariant_witness :
    geneSum ((("B" : String), (⟨1/2, 0, 0, 1/2, 0⟩ : Dist)) : String × Dist).2 =
      totalMass [(["A"], [], ["B"], 1/2)] ∧
    traitSum ((("B" : String), (⟨1/2, 0, 0, 1/2, 0⟩ : Dist)) : String × Dist).2 =
      totalMass [(["A"], [], ["B"], 1/2)] :=
  C10_accumulator_invariant ["A", "B"] [(["A"], [], ["B"], 1/2)]
    ("B", ⟨1/2, 0, 0, 1/2, 0⟩) (by decide!)

end Heredity
